import Mathlib

/-!
Verification of the streaming-chat transport and proxy authentication logic of
the goddard-gui dashboard.

The development shallowly embeds the relevant source code:

* `GatewayClient.chatStream` (src/lib/api.ts, lines 157-222): the incremental
  SSE-chunk decoder.  Network byte chunks are modelled as `List Nat` (byte
  values); the platform `TextDecoder` (UTF-8, non-fatal, streaming) is modelled
  by the incremental decoder `utf8DecodeCore` below (BOM stripping, which the
  platform decoder performs on a leading U+FEFF, is not modelled; no claim
  involves a byte-order mark).  The platform `JSON.parse` composed with the
  access path `parsed.choices?.[0]?.delta?.content` is an external runtime
  primitive; it is modelled abstractly by a function argument
  `e : Extract := List Char → Option (List Char)` returning `some content`
  exactly when the payload parses and carries a string content field, `none`
  when parsing fails or the field is absent.  All theorems about the decoder
  hold for every such `e`.
* the inline duplicate of the decoder loop in the general-chat submit handler
  `handleGeneralSubmit` (src/unnamed/part_004, lines 213-247), which differs
  from `chatStream` in that the `[DONE]` sentinel executes `break` (leaving
  only the inner per-line loop) instead of `return`.
* `GatewayClient.invoke` (src/lib/api.ts, lines 62-88).
* `checkAuth` of the two proxy routes (src/app/api/gateway/route.ts and
  src/app/api/chat/route.ts).

JavaScript strings are modelled as `List Char`; `undefined`/`null` values as
`Option`; thrown errors as `Except.error`.
-/

/-! ## Incremental UTF-8 byte decoder (model of `TextDecoder` with `stream: true`) -/

/-- U+FFFD, the replacement character emitted for invalid byte sequences. -/
def replChar : Char := Char.ofNat 0xFFFD

/-- Decoding of a 2-byte sequence with leading byte `b` (0xC2-0xDF), given the
bytes after `b`.  `none` means the input ended before the sequence completed. -/
def utf8Dec2 (b : Nat) : List Nat → Option (Char × Nat)
  | [] => none
  | b1 :: _ =>
    if 0x80 ≤ b1 ∧ b1 ≤ 0xBF then
      some (Char.ofNat ((b - 0xC0) * 64 + (b1 - 0x80)), 2)
    else some (replChar, 1)

/-- Admissible range for the second byte of a 3-byte sequence (lower bound). -/
def utf8Lo3 (b : Nat) : Nat := if b = 0xE0 then 0xA0 else 0x80

/-- Admissible range for the second byte of a 3-byte sequence (upper bound). -/
def utf8Hi3 (b : Nat) : Nat := if b = 0xED then 0x9F else 0xBF

/-- Admissible range for the second byte of a 4-byte sequence (lower bound). -/
def utf8Lo4 (b : Nat) : Nat := if b = 0xF0 then 0x90 else 0x80

/-- Admissible range for the second byte of a 4-byte sequence (upper bound). -/
def utf8Hi4 (b : Nat) : Nat := if b = 0xF4 then 0x8F else 0xBF

/-- Decoding of a 3-byte sequence with leading byte `b` (0xE0-0xEF). -/
def utf8Dec3 (b : Nat) : List Nat → Option (Char × Nat)
  | [] => none
  | b1 :: rest =>
    if utf8Lo3 b ≤ b1 ∧ b1 ≤ utf8Hi3 b then
      match rest with
      | [] => none
      | b2 :: _ =>
        if 0x80 ≤ b2 ∧ b2 ≤ 0xBF then
          some (Char.ofNat ((b - 0xE0) * 4096 + (b1 - 0x80) * 64 + (b2 - 0x80)), 3)
        else some (replChar, 2)
    else some (replChar, 1)

/-- Decoding of a 4-byte sequence with leading byte `b` (0xF0-0xF4). -/
def utf8Dec4 (b : Nat) : List Nat → Option (Char × Nat)
  | [] => none
  | b1 :: rest =>
    if utf8Lo4 b ≤ b1 ∧ b1 ≤ utf8Hi4 b then
      match rest with
      | [] => none
      | b2 :: rest2 =>
        if 0x80 ≤ b2 ∧ b2 ≤ 0xBF then
          match rest2 with
          | [] => none
          | b3 :: _ =>
            if 0x80 ≤ b3 ∧ b3 ≤ 0xBF then
              some (Char.ofNat ((b - 0xF0) * 262144 + (b1 - 0x80) * 4096 +
                (b2 - 0x80) * 64 + (b3 - 0x80)), 4)
            else some (replChar, 3)
        else some (replChar, 2)
    else some (replChar, 1)

/-- Decode one scalar value (or one replacement for an invalid subsequence)
from the front of a byte list.  `some (c, k)` means `c` was produced consuming
`k` bytes; `none` means the list is a prefix of an incomplete sequence and
more input is required before anything can be produced. -/
def utf8DecodeOne : List Nat → Option (Char × Nat)
  | [] => none
  | b :: rest =>
    if b < 0x80 then some (Char.ofNat b, 1)
    else if b < 0xC2 then some (replChar, 1)
    else if b < 0xE0 then utf8Dec2 b rest
    else if b < 0xF0 then utf8Dec3 b rest
    else if b < 0xF5 then utf8Dec4 b rest
    else some (replChar, 1)

theorem utf8Dec2_bound {b : Nat} {r : List Nat} {c : Char} {k : Nat}
    (h : utf8Dec2 b r = some (c, k)) : 1 ≤ k ∧ k ≤ r.length + 1 := by
  cases r with
  | nil => simp [utf8Dec2] at h
  | cons b1 r' =>
    simp only [utf8Dec2] at h
    split at h <;> simp_all <;> omega

theorem utf8Dec3_bound {b : Nat} {r : List Nat} {c : Char} {k : Nat}
    (h : utf8Dec3 b r = some (c, k)) : 1 ≤ k ∧ k ≤ r.length + 1 := by
  cases r with
  | nil => simp [utf8Dec3] at h
  | cons b1 r' =>
    simp only [utf8Dec3] at h
    split at h
    · cases r' with
      | nil => simp at h
      | cons b2 r'' =>
        simp only at h
        split at h <;> simp_all <;> omega
    · simp_all

theorem utf8Dec4_bound {b : Nat} {r : List Nat} {c : Char} {k : Nat}
    (h : utf8Dec4 b r = some (c, k)) : 1 ≤ k ∧ k ≤ r.length + 1 := by
  cases r with
  | nil => simp [utf8Dec4] at h
  | cons b1 r' =>
    simp only [utf8Dec4] at h
    split at h
    · cases r' with
      | nil => simp at h
      | cons b2 r'' =>
        simp only at h
        split at h
        · cases r'' with
          | nil => simp at h
          | cons b3 r3 =>
            simp only at h
            split at h <;> simp_all <;> omega
        · simp_all
          omega
    · simp_all

theorem utf8DecodeOne_bound {s : List Nat} {c : Char} {k : Nat}
    (h : utf8DecodeOne s = some (c, k)) : 1 ≤ k ∧ k ≤ s.length := by
  cases s with
  | nil => simp [utf8DecodeOne] at h
  | cons b rest =>
    simp only [utf8DecodeOne] at h
    split_ifs at h
    · simp_all
    · simp_all
    · have := utf8Dec2_bound h
      simp only [List.length_cons]
      omega
    · have := utf8Dec3_bound h
      simp only [List.length_cons]
      omega
    · have := utf8Dec4_bound h
      simp only [List.length_cons]
      omega
    · simp_all

theorem utf8Dec2_mono {b : Nat} {r t : List Nat} {v : Char × Nat}
    (h : utf8Dec2 b r = some v) : utf8Dec2 b (r ++ t) = some v := by
  cases r with
  | nil => simp [utf8Dec2] at h
  | cons b1 r' => simpa [utf8Dec2] using h

theorem utf8Dec3_mono {b : Nat} {r t : List Nat} {v : Char × Nat}
    (h : utf8Dec3 b r = some v) : utf8Dec3 b (r ++ t) = some v := by
  cases r with
  | nil => simp [utf8Dec3] at h
  | cons b1 r' =>
    simp only [utf8Dec3, List.cons_append] at h ⊢
    split at h
    · cases r' with
      | nil => simp at h
      | cons b2 r'' =>
        simp only [List.cons_append]
        simp_all
    · simp_all

theorem utf8Dec4_mono {b : Nat} {r t : List Nat} {v : Char × Nat}
    (h : utf8Dec4 b r = some v) : utf8Dec4 b (r ++ t) = some v := by
  cases r with
  | nil => simp [utf8Dec4] at h
  | cons b1 r' =>
    simp only [utf8Dec4, List.cons_append] at h ⊢
    split at h
    · cases r' with
      | nil => simp at h
      | cons b2 r'' =>
        simp only [List.cons_append] at h ⊢
        split at h
        · cases r'' with
          | nil => simp at h
          | cons b3 r3 =>
            simp only [List.cons_append]
            simp_all
        · simp_all
    · simp_all

theorem utf8DecodeOne_mono {s t : List Nat} {v : Char × Nat}
    (h : utf8DecodeOne s = some v) : utf8DecodeOne (s ++ t) = some v := by
  cases s with
  | nil => simp [utf8DecodeOne] at h
  | cons b rest =>
    simp only [utf8DecodeOne, List.cons_append] at h ⊢
    split_ifs at h ⊢ <;>
      first
        | exact h
        | exact utf8Dec2_mono h
        | exact utf8Dec3_mono h
        | exact utf8Dec4_mono h

/-- Fuel-indexed repeated decoding: produce as many scalar values as the bytes
allow, returning the produced characters and the unconsumed trailing bytes
(a prefix of an incomplete sequence, kept as decoder state). -/
def utf8DecodeCoreF : Nat → List Nat → List Char × List Nat
  | 0, s => ([], s)
  | fuel + 1, s =>
    match utf8DecodeOne s with
    | none => ([], s)
    | some (c, k) =>
      let r := utf8DecodeCoreF fuel (s.drop k)
      (c :: r.1, r.2)

/-- Streaming decode of a byte list: the characters produced and the pending
incomplete trailing bytes.  Models one `decoder.decode(value, { stream: true })`
call on the pending bytes followed by the new chunk. -/
def utf8DecodeCore (s : List Nat) : List Char × List Nat :=
  utf8DecodeCoreF s.length s

theorem utf8DecodeCoreF_nil (f : Nat) : utf8DecodeCoreF f [] = ([], []) := by
  cases f <;> simp [utf8DecodeCoreF, utf8DecodeOne]

theorem utf8DecodeCoreF_congr :
    ∀ (f1 f2 : Nat) (s : List Nat), s.length ≤ f1 → s.length ≤ f2 →
      utf8DecodeCoreF f1 s = utf8DecodeCoreF f2 s := by
  intro f1
  induction f1 with
  | zero =>
    intro f2 s hs1 _
    have : s = [] := List.length_eq_zero.mp (Nat.le_zero.mp hs1)
    subst this
    simp [utf8DecodeCoreF_nil]
  | succ m ih =>
    intro f2 s hs1 hs2
    cases f2 with
    | zero =>
      have : s = [] := List.length_eq_zero.mp (Nat.le_zero.mp hs2)
      subst this
      simp [utf8DecodeCoreF_nil]
    | succ m2 =>
      cases h : utf8DecodeOne s with
      | none => simp [utf8DecodeCoreF, h]
      | some v =>
        obtain ⟨c, k⟩ := v
        have hb := utf8DecodeOne_bound h
        have hlen : (s.drop k).length ≤ m ∧ (s.drop k).length ≤ m2 := by
          simp only [List.length_drop]
          omega
        simp only [utf8DecodeCoreF, h]
        rw [ih m2 (s.drop k) hlen.1 hlen.2]

theorem utf8DecodeCore_none {s : List Nat} (h : utf8DecodeOne s = none) :
    utf8DecodeCore s = ([], s) := by
  cases s with
  | nil => simp [utf8DecodeCore, utf8DecodeCoreF]
  | cons b t => simp [utf8DecodeCore, utf8DecodeCoreF, h]

theorem utf8DecodeCore_some {s : List Nat} {c : Char} {k : Nat}
    (h : utf8DecodeOne s = some (c, k)) :
    utf8DecodeCore s =
      (c :: (utf8DecodeCore (s.drop k)).1, (utf8DecodeCore (s.drop k)).2) := by
  have hb := utf8DecodeOne_bound h
  cases s with
  | nil => simp [utf8DecodeOne] at h
  | cons b t =>
    show utf8DecodeCoreF (b :: t).length (b :: t) = _
    simp only [List.length_cons, utf8DecodeCoreF, h]
    rw [utf8DecodeCoreF_congr t.length ((b :: t).drop k).length ((b :: t).drop k)
      (by simp only [List.length_drop, List.length_cons]; omega) (Nat.le_refl _)]
    rfl

theorem utf8DecodeCore_append_aux (n : Nat) :
    ∀ (s t : List Nat), s.length ≤ n →
      utf8DecodeCore (s ++ t) =
        ((utf8DecodeCore s).1 ++ (utf8DecodeCore ((utf8DecodeCore s).2 ++ t)).1,
          (utf8DecodeCore ((utf8DecodeCore s).2 ++ t)).2) := by
  induction n with
  | zero =>
    intro s t hs
    have : s = [] := List.length_eq_zero.mp (Nat.le_zero.mp hs)
    subst this
    have h0 : utf8DecodeCore ([] : List Nat) = ([], []) := utf8DecodeCore_none rfl
    simp [h0]
  | succ m ih =>
    intro s t hs
    cases h : utf8DecodeOne s with
    | none =>
      rw [utf8DecodeCore_none h]
      simp
    | some v =>
      obtain ⟨c, k⟩ := v
      have hb := utf8DecodeOne_bound h
      have h2 : utf8DecodeOne (s ++ t) = some (c, k) := utf8DecodeOne_mono h
      rw [utf8DecodeCore_some h, utf8DecodeCore_some h2,
        List.drop_append_of_le_length hb.2,
        ih (s.drop k) t (by simp only [List.length_drop]; omega)]
      simp

/-- Streaming decode distributes over append: decoding `s ++ t` equals
decoding `s`, then decoding its pending remainder followed by `t`. -/
theorem utf8DecodeCore_append (s t : List Nat) :
    utf8DecodeCore (s ++ t) =
      ((utf8DecodeCore s).1 ++ (utf8DecodeCore ((utf8DecodeCore s).2 ++ t)).1,
        (utf8DecodeCore ((utf8DecodeCore s).2 ++ t)).2) :=
  utf8DecodeCore_append_aux s.length s t (Nat.le_refl _)

theorem utf8DecodeCore_snd_aux (n : Nat) :
    ∀ s : List Nat, s.length ≤ n → utf8DecodeOne (utf8DecodeCore s).2 = none := by
  induction n with
  | zero =>
    intro s hs
    have : s = [] := List.length_eq_zero.mp (Nat.le_zero.mp hs)
    subst this
    have h0 : utf8DecodeCore ([] : List Nat) = ([], []) := utf8DecodeCore_none rfl
    rw [h0]
    rfl
  | succ m ih =>
    intro s hs
    cases h : utf8DecodeOne s with
    | none => rw [utf8DecodeCore_none h]; exact h
    | some v =>
      obtain ⟨c, k⟩ := v
      have hb := utf8DecodeOne_bound h
      rw [utf8DecodeCore_some h]
      exact ih (s.drop k) (by simp only [List.length_drop]; omega)

/-- The pending bytes left by a streaming decode never form a decodable unit:
the decoder only withholds bytes when it must wait for more input. -/
theorem utf8DecodeCore_snd (s : List Nat) :
    utf8DecodeOne (utf8DecodeCore s).2 = none :=
  utf8DecodeCore_snd_aux s.length s (Nat.le_refl _)

/-! ## UTF-8 encoder

Used only to state hypotheses of the form "the byte stream is the UTF-8
encoding of this text". -/

theorem char_toNat_valid (c : Char) :
    c.toNat < 0xd800 ∨ (0xdfff < c.toNat ∧ c.toNat < 0x110000) := by
  rcases c.valid with h | ⟨h1, h2⟩
  · exact Or.inl (UInt32.toNat_lt_of_lt (by decide) h)
  · exact Or.inr ⟨UInt32.lt_toNat_of_lt (by decide) h1,
      UInt32.toNat_lt_of_lt (by decide) h2⟩

/-- Standard UTF-8 encoding of one scalar value. -/
def utf8EncodeChar (c : Char) : List Nat :=
  let n := c.toNat
  if n < 0x80 then [n]
  else if n < 0x800 then [0xC0 + n / 64, 0x80 + n % 64]
  else if n < 0x10000 then [0xE0 + n / 4096, 0x80 + n / 64 % 64, 0x80 + n % 64]
  else [0xF0 + n / 262144, 0x80 + n / 4096 % 64, 0x80 + n / 64 % 64, 0x80 + n % 64]

/-- UTF-8 encoding of a text. -/
def utf8Encode (s : List Char) : List Nat := (s.map utf8EncodeChar).flatten

theorem utf8DecodeOne_encodeChar (c : Char) (t : List Nat) :
    utf8DecodeOne (utf8EncodeChar c ++ t) = some (c, (utf8EncodeChar c).length) := by
  have hv := char_toNat_valid c
  by_cases h1 : c.toNat < 0x80
  · simp only [utf8EncodeChar, if_pos h1, List.cons_append, List.nil_append,
      List.length_cons, List.length_nil]
    simp only [utf8DecodeOne, if_pos h1, Char.ofNat_toNat]
  · by_cases h2 : c.toNat < 0x800
    · simp only [utf8EncodeChar, if_neg h1, if_pos h2, List.cons_append, List.nil_append,
        List.length_cons, List.length_nil]
      simp only [utf8DecodeOne]
      rw [if_neg (by omega), if_neg (by omega), if_pos (by omega)]
      simp only [utf8Dec2]
      rw [if_pos (by omega)]
      have hval : (0xC0 + c.toNat / 64 - 0xC0) * 64 + (0x80 + c.toNat % 64 - 0x80)
          = c.toNat := by omega
      rw [hval, Char.ofNat_toNat]
    · by_cases h3 : c.toNat < 0x10000
      · simp only [utf8EncodeChar, if_neg h1, if_neg h2, if_pos h3, List.cons_append,
          List.nil_append, List.length_cons, List.length_nil]
        simp only [utf8DecodeOne]
        rw [if_neg (by omega), if_neg (by omega), if_neg (by omega), if_pos (by omega)]
        simp only [utf8Dec3, utf8Lo3, utf8Hi3]
        rw [if_pos (by split_ifs <;> omega)]
        rw [if_pos (by omega)]
        have hval : (0xE0 + c.toNat / 4096 - 0xE0) * 4096 +
            (0x80 + c.toNat / 64 % 64 - 0x80) * 64 + (0x80 + c.toNat % 64 - 0x80)
            = c.toNat := by omega
        rw [hval, Char.ofNat_toNat]
      · simp only [utf8EncodeChar, if_neg h1, if_neg h2, if_neg h3, List.cons_append,
          List.nil_append, List.length_cons, List.length_nil]
        simp only [utf8DecodeOne]
        rw [if_neg (by omega), if_neg (by omega), if_neg (by omega), if_neg (by omega),
          if_pos (by omega)]
        simp only [utf8Dec4, utf8Lo4, utf8Hi4]
        rw [if_pos (by split_ifs <;> omega)]
        rw [if_pos (by omega), if_pos (by omega)]
        have hval : (0xF0 + c.toNat / 262144 - 0xF0) * 262144 +
            (0x80 + c.toNat / 4096 % 64 - 0x80) * 4096 +
            (0x80 + c.toNat / 64 % 64 - 0x80) * 64 + (0x80 + c.toNat % 64 - 0x80)
            = c.toNat := by omega
        rw [hval, Char.ofNat_toNat]

/-- Decoding is a left inverse of encoding: a fully valid byte stream decodes
to the original text with no pending remainder. -/
theorem utf8DecodeCore_encode (s : List Char) :
    utf8DecodeCore (utf8Encode s) = (s, []) := by
  induction s with
  | nil =>
    show utf8DecodeCore [] = _
    exact utf8DecodeCore_none rfl
  | cons c s' ih =>
    have henc : utf8Encode (c :: s') = utf8EncodeChar c ++ utf8Encode s' := by
      simp [utf8Encode]
    rw [henc, utf8DecodeCore_some (utf8DecodeOne_encodeChar c (utf8Encode s')),
      List.drop_left, ih]

/-! ## Text utilities: JavaScript `trim`, `split("\n")` with `pop`, prefix test -/

/-- The ECMAScript whitespace set recognised by `String.prototype.trim`
(WhiteSpace plus LineTerminator code points). -/
def jsWhitespace (c : Char) : Bool :=
  c = ' ' || c = '\t' || c = '\n' || c = '\x0b' || c = '\x0c' || c = '\r' ||
  c = ' ' || c = ' ' || (0x2000 ≤ c.toNat && c.toNat ≤ 0x200A) ||
  c = ' ' || c = ' ' || c = ' ' || c = ' ' ||
  c = '　' || c = '﻿'

/-- Remove leading JS whitespace. -/
def jsTrimLeft (l : List Char) : List Char := l.dropWhile jsWhitespace

/-- Remove trailing JS whitespace. -/
def jsTrimRight : List Char → List Char
  | [] => []
  | c :: cs =>
    let r := jsTrimRight cs
    if r = [] && jsWhitespace c then [] else c :: r

/-- Model of JavaScript `String.prototype.trim`. -/
def jsTrim (l : List Char) : List Char := jsTrimRight (jsTrimLeft l)

theorem jsTrimLeft_cons_of_not_ws {c : Char} (l : List Char)
    (h : jsWhitespace c = false) : jsTrimLeft (c :: l) = c :: l := by
  simp [jsTrimLeft, List.dropWhile_cons, h]

theorem jsTrimRight_append {p : List Char} (x : List Char)
    (hfix : jsTrimRight p = p) (hne : p ≠ []) :
    jsTrimRight (x ++ p) = x ++ p := by
  induction x with
  | nil => simpa using hfix
  | cons c x' ih =>
    show jsTrimRight (c :: (x' ++ p)) = _
    simp only [jsTrimRight, ih]
    have : x' ++ p ≠ [] := by simp [hne]
    simp [this]

theorem jsTrim_append_of_fix {p : List Char} {c : Char} (x : List Char)
    (hc : jsWhitespace c = false) (hfix : jsTrimRight p = p) (hne : p ≠ []) :
    jsTrim (c :: x ++ p) = c :: x ++ p := by
  show jsTrimRight (jsTrimLeft (c :: (x ++ p))) = _
  rw [jsTrimLeft_cons_of_not_ws _ hc]
  have := jsTrimRight_append (p := p) (c :: x) hfix hne
  simpa using this

/-- Test `leadsWith pat l`: holds when `pat` is an initial segment of `l`;
models JavaScript `l.startsWith(pat)`. -/
def leadsWith : List Char → List Char → Bool
  | [], _ => true
  | _ :: _, [] => false
  | p :: ps, c :: cs => if p = c then leadsWith ps cs else false

theorem leadsWith_append (x y : List Char) : leadsWith x (x ++ y) = true := by
  induction x with
  | nil => rfl
  | cons c x' ih => simpa [leadsWith] using ih

/-- Returns `true` when the text contains no newline character. -/
def noNl : List Char → Bool
  | [] => true
  | c :: cs => if c = '\n' then false else noNl cs

theorem noNl_append {a b : List Char} (ha : noNl a = true) (hb : noNl b = true) :
    noNl (a ++ b) = true := by
  induction a with
  | nil => simpa using hb
  | cons c a' ih =>
    simp only [noNl, List.cons_append] at ha ⊢
    split at ha
    · exact absurd ha (by simp)
    · simp only [*]
      exact ih ha

/-- The line framer: splits a text into the complete (newline-terminated)
lines, each without its terminator, and the trailing remainder.  Models
`const lines = buffer.split("\n"); buffer = lines.pop() || "";`. -/
def splitLines : List Char → List (List Char) × List Char
  | [] => ([], [])
  | c :: rest =>
    if c = '\n' then
      (([] : List Char) :: (splitLines rest).1, (splitLines rest).2)
    else
      match splitLines rest with
      | ([], r) => ([], c :: r)
      | (l :: ls, r) => ((c :: l) :: ls, r)

theorem splitLines_of_noNl {s : List Char} (h : noNl s = true) :
    splitLines s = ([], s) := by
  induction s with
  | nil => rfl
  | cons c rest ih =>
    simp only [noNl] at h
    split at h
    · exact absurd h (by simp)
    · simp only [splitLines, if_neg (by assumption), ih h]

theorem splitLines_snd_noNl (s : List Char) : noNl (splitLines s).2 = true := by
  induction s with
  | nil => rfl
  | cons c rest ih =>
    by_cases hc : c = '\n'
    · simp only [splitLines, if_pos hc]
      exact ih
    · simp only [splitLines, if_neg hc]
      cases h : splitLines rest with
      | mk ls r =>
        cases ls with
        | nil =>
          simp only []
          rw [h] at ih
          simpa [noNl, hc] using ih
        | cons l ls' =>
          simp only []
          rw [h] at ih
          exact ih

theorem splitLines_cons_nl (rest : List Char) :
    splitLines ('\n' :: rest) =
      ([] :: (splitLines rest).1, (splitLines rest).2) := by
  simp [splitLines]

theorem splitLines_cons_of_nil {c : Char} {rest r : List Char} (hc : c ≠ '\n')
    (h : splitLines rest = ([], r)) : splitLines (c :: rest) = ([], c :: r) := by
  simp [splitLines, hc, h]

theorem splitLines_cons_of_cons {c : Char} {rest l r : List Char}
    {ls : List (List Char)} (hc : c ≠ '\n') (h : splitLines rest = (l :: ls, r)) :
    splitLines (c :: rest) = ((c :: l) :: ls, r) := by
  simp [splitLines, hc, h]

theorem splitLines_append (a b : List Char) :
    splitLines (a ++ b) =
      ((splitLines a).1 ++ (splitLines ((splitLines a).2 ++ b)).1,
        (splitLines ((splitLines a).2 ++ b)).2) := by
  induction a with
  | nil => simp [splitLines]
  | cons c a' ih =>
    by_cases hc : c = '\n'
    · subst hc
      rw [List.cons_append, splitLines_cons_nl, splitLines_cons_nl, ih]
      simp
    · rw [List.cons_append]
      cases h : splitLines a' with
      | mk ls r =>
        cases ls with
        | nil =>
          rw [splitLines_cons_of_nil hc h]
          have hab : splitLines (a' ++ b) = splitLines (r ++ b) := by
            rw [ih, h]
            simp
          cases h2 : splitLines (r ++ b) with
          | mk ls2 r2 =>
            cases ls2 with
            | nil =>
              rw [splitLines_cons_of_nil hc (hab.trans h2)]
              simp only [List.nil_append, List.cons_append]
              rw [splitLines_cons_of_nil hc h2]
            | cons l2 ls2' =>
              rw [splitLines_cons_of_cons hc (hab.trans h2)]
              simp only [List.nil_append, List.cons_append]
              rw [splitLines_cons_of_cons hc h2]
        | cons l ls' =>
          rw [splitLines_cons_of_cons hc h]
          have hab : splitLines (a' ++ b) =
              (l :: (ls' ++ (splitLines (r ++ b)).1), (splitLines (r ++ b)).2) := by
            rw [ih, h]
            simp
          rw [splitLines_cons_of_cons hc hab]
          simp

/-- A complete line followed by a newline splits off as the first line. -/
theorem splitLines_line {x : List Char} (rest : List Char) (hx : noNl x = true) :
    splitLines (x ++ '\n' :: rest) =
      (x :: (splitLines rest).1, (splitLines rest).2) := by
  induction x with
  | nil =>
    rw [List.nil_append, splitLines_cons_nl]
  | cons c x' ih =>
    simp only [noNl] at hx
    split at hx
    · exact absurd hx (by simp)
    · rw [List.cons_append, splitLines_cons_of_cons (by assumption) (ih hx)]

/-! ## The SSE decoder of `GatewayClient.chatStream` (api.ts 193-222) -/

/-- Abstraction of the platform primitive `JSON.parse` composed with the
access `parsed.choices?.[0]?.delta?.content`: `some content` when the payload
parses as JSON and carries a string content field, `none` when parsing throws
or the field is absent. -/
abbrev Extract := List Char → Option (List Char)

/-- The literal line prefix `"data: "`. -/
def dataTag : List Char := "data: ".toList

/-- The sentinel payload `"[DONE]"`. -/
def doneTag : List Char := "[DONE]".toList

/-- Outcome of the loop body of `chatStream` for one line: `stop` models the
`return` on the sentinel, `skip` a `continue`/no-yield path, `emit` a yield. -/
inductive LineOut where
  | stop : LineOut
  | skip : LineOut
  | emit : List Char → LineOut
deriving DecidableEq

/-- The per-line loop body of `chatStream` (api.ts 207-219):
trim, discard empty and non-`data: ` lines, detect the sentinel before JSON
parsing, yield a truthy (non-empty) content field, swallow parse failures. -/
def processLine (e : Extract) (line : List Char) : LineOut :=
  let trimmed := jsTrim line
  if trimmed = [] then LineOut.skip
  else if leadsWith dataTag trimmed = false then LineOut.skip
  else
    let d := trimmed.drop 6
    if d = doneTag then LineOut.stop
    else
      match e d with
      | some content => if content = [] then LineOut.skip else LineOut.emit content
      | none => LineOut.skip

/-- The `for (const line of lines)` loop of `chatStream`: the deltas yielded
from this batch of lines, and whether the generator returned (sentinel hit). -/
def processLines (e : Extract) : List (List Char) → List (List Char) × Bool
  | [] => ([], false)
  | l :: ls =>
    match processLine e l with
    | LineOut.stop => ([], true)
    | LineOut.skip => processLines e ls
    | LineOut.emit c => (c :: (processLines e ls).1, (processLines e ls).2)

/-- The decoder state held across `reader.read()` awaits: the pending bytes
inside the `TextDecoder` and the line `buffer` string. -/
structure StreamState where
  pending : List Nat
  buffer : List Char
deriving DecidableEq

/-- Processing of one network chunk (api.ts 203-220): decode bytes, flush
complete lines from the buffer, run the line loop.  Returns the yielded
deltas, whether the generator returned, and the successor state. -/
def chatStreamStep (e : Extract) (st : StreamState) (chunk : List Nat) :
    List (List Char) × Bool × StreamState :=
  let dec := utf8DecodeCore (st.pending ++ chunk)
  let sp := splitLines (st.buffer ++ dec.1)
  let pr := processLines e sp.1
  (pr.1, pr.2, ⟨dec.2, sp.2⟩)

/-- The `while (true)` read loop of `chatStream` (api.ts 199-221): `done`
ends the sequence normally; the sentinel `return` abandons the rest. -/
def chatStreamRun (e : Extract) (st : StreamState) :
    List (List Nat) → List (List Char)
  | [] => []
  | chunk :: rest =>
    let step := chatStreamStep e st chunk
    if step.2.1 then step.1
    else step.1 ++ chatStreamRun e step.2.2 rest

/-- Model of `GatewayClient.chatStream` after a successful fetch: the ordered sequence
of deltas yielded for the given sequence of network byte chunks. -/
def GatewayClient.chatStream (e : Extract) (chunks : List (List Nat)) :
    List (List Char) :=
  chatStreamRun e ⟨[], []⟩ chunks

theorem processLines_append (e : Extract) (l1 l2 : List (List Char)) :
    processLines e (l1 ++ l2) =
      if (processLines e l1).2 then processLines e l1
      else ((processLines e l1).1 ++ (processLines e l2).1, (processLines e l2).2) := by
  induction l1 with
  | nil => simp [processLines]
  | cons l ls ih =>
    rw [List.cons_append]
    cases h : processLine e l with
    | stop => simp [processLines, h]
    | skip =>
      simp only [processLines, h]
      rw [ih]
    | emit c =>
      simp only [processLines, h]
      rw [ih]
      by_cases hs : (processLines e ls).2 <;> simp [hs]

/-- Evaluation of the read loop: from a state whose pending bytes are an
incomplete sequence and whose buffer holds no newline, the deltas produced on
a chunk list are those of the line loop applied to the complete lines of the
whole decoded text. -/
theorem chatStreamRun_eq (e : Extract) :
    ∀ (chunks : List (List Nat)) (st : StreamState),
      utf8DecodeOne st.pending = none → noNl st.buffer = true →
      chatStreamRun e st chunks =
        (processLines e
          (splitLines (st.buffer ++
            (utf8DecodeCore (st.pending ++ chunks.flatten)).1)).1).1 := by
  intro chunks
  induction chunks with
  | nil =>
    intro st hp hb
    rw [List.flatten_nil, List.append_nil, utf8DecodeCore_none hp]
    rw [show (([] : List Char), st.pending).1 = [] from rfl, List.append_nil,
      splitLines_of_noNl hb]
    rfl
  | cons chunk rest ih =>
    intro st hp hb
    have hassoc : st.pending ++ (chunk :: rest).flatten
        = (st.pending ++ chunk) ++ rest.flatten := by
      rw [List.flatten_cons, List.append_assoc]
    rw [hassoc, utf8DecodeCore_append (st.pending ++ chunk) rest.flatten]
    have hsp := splitLines_append (st.buffer ++ (utf8DecodeCore (st.pending ++ chunk)).1)
      ((utf8DecodeCore ((utf8DecodeCore (st.pending ++ chunk)).2 ++ rest.flatten)).1)
    rw [show st.buffer ++
        ((utf8DecodeCore (st.pending ++ chunk)).1 ++
          (utf8DecodeCore ((utf8DecodeCore (st.pending ++ chunk)).2 ++ rest.flatten)).1)
        = (st.buffer ++ (utf8DecodeCore (st.pending ++ chunk)).1) ++
          (utf8DecodeCore ((utf8DecodeCore (st.pending ++ chunk)).2 ++ rest.flatten)).1
      from (List.append_assoc _ _ _).symm, hsp]
    rw [processLines_append]
    show chatStreamRun e st (chunk :: rest) = _
    simp only [chatStreamRun, chatStreamStep]
    by_cases hstop :
        (processLines e
          (splitLines (st.buffer ++ (utf8DecodeCore (st.pending ++ chunk)).1)).1).2
    · rw [if_pos hstop, if_pos hstop]
    · rw [if_neg hstop, if_neg hstop]
      have hrec := ih ⟨(utf8DecodeCore (st.pending ++ chunk)).2,
          (splitLines (st.buffer ++ (utf8DecodeCore (st.pending ++ chunk)).1)).2⟩
        (utf8DecodeCore_snd (st.pending ++ chunk))
        (splitLines_snd_noNl (st.buffer ++ (utf8DecodeCore (st.pending ++ chunk)).1))
      rw [hrec]

/-- Evaluation of `chatStream` through the decoded text of the whole stream. -/
theorem chatStream_eq_deltas (e : Extract) (chunks : List (List Nat)) :
    GatewayClient.chatStream e chunks =
      (processLines e (splitLines (utf8DecodeCore chunks.flatten).1).1).1 := by
  show chatStreamRun e ⟨[], []⟩ chunks = _
  rw [chatStreamRun_eq e chunks ⟨[], []⟩ rfl rfl]
  rfl

/-! ## Canonical well-formed streams -/

/-- One well-formed SSE frame: a `data: ` line with payload `p`, newline
terminated. -/
def frameText (p : List Char) : List Char := dataTag ++ p ++ ['\n']

/-- A full well-formed stream text: frames for the payloads in order, followed
by the sentinel line. -/
def streamText (ps : List (List Char)) : List Char :=
  (ps.map frameText).flatten ++ (dataTag ++ doneTag ++ ['\n'])

/-- Well-formedness of a frame payload: non-empty, no embedded newline, no
trailing JS whitespace (so the code's `trim` leaves the frame intact), and not
itself the sentinel. -/
def goodPayload (p : List Char) : Prop :=
  p ≠ [] ∧ noNl p = true ∧ jsTrimRight p = p ∧ p ≠ doneTag

instance goodPayloadDecidable (p : List Char) : Decidable (goodPayload p) := by
  unfold goodPayload
  exact inferInstance

/-- The branch of the line loop reached on a `data: ` line whose payload is
not the sentinel. -/
def payloadOut (e : Extract) (p : List Char) : LineOut :=
  match e p with
  | some content => if content = [] then LineOut.skip else LineOut.emit content
  | none => LineOut.skip

theorem jsTrim_dataTag_append {p : List Char} (hfix : jsTrimRight p = p)
    (hne : p ≠ []) : jsTrim (dataTag ++ p) = dataTag ++ p := by
  have h := jsTrim_append_of_fix (c := 'd') (['a', 't', 'a', ':', ' ']) (by decide)
    hfix hne
  exact h

theorem drop6_dataTag_append (p : List Char) : (dataTag ++ p).drop 6 = p := by
  rw [show (6 : Nat) = dataTag.length from rfl, List.drop_left]

theorem processLine_data (e : Extract) {p : List Char} (hp : goodPayload p) :
    processLine e (dataTag ++ p) = payloadOut e p := by
  obtain ⟨hne, _, hfix, hd⟩ := hp
  have htrim := jsTrim_dataTag_append hfix hne
  simp only [processLine, htrim]
  rw [if_neg (by simp [hne]), if_neg (by simp [leadsWith_append]),
    drop6_dataTag_append]
  rw [if_neg hd]
  rfl

theorem processLine_sentinel (e : Extract) :
    processLine e (dataTag ++ doneTag) = LineOut.stop := rfl

/-- Line-loop evaluation on a batch of well-formed `data: ` lines. -/
theorem processLines_dataframes (e : Extract) (ps : List (List Char))
    (hps : ∀ p ∈ ps, goodPayload p) :
    processLines e (ps.map (fun p => dataTag ++ p)) =
      ((ps.map (fun p => (e p).getD [])).filter (fun c => decide (c ≠ [])), false) := by
  induction ps with
  | nil => rfl
  | cons p ps' ih =>
    have hp : goodPayload p := hps p (by simp)
    have hrest : ∀ q ∈ ps', goodPayload q := fun q hq => hps q (by simp [hq])
    simp only [List.map_cons, processLines, processLine_data e hp, ih hrest,
      List.filter_cons]
    cases he : e p with
    | none => simp [payloadOut, he]
    | some content =>
      by_cases hc : content = []
      · subst hc
        simp [payloadOut, he]
      · simp [payloadOut, he, hc]

/-- Line framing of a sequence of frames followed by arbitrary tail text. -/
theorem splitLines_frames (ps : List (List Char)) (tail : List Char)
    (hps : ∀ p ∈ ps, noNl p = true) :
    splitLines ((ps.map frameText).flatten ++ tail) =
      (ps.map (fun p => dataTag ++ p) ++ (splitLines tail).1,
        (splitLines tail).2) := by
  induction ps with
  | nil => simp
  | cons p ps' ih =>
    have hp : noNl (dataTag ++ p) = true :=
      noNl_append (by decide) (hps p (by simp))
    have hrest : ∀ q ∈ ps', noNl q = true := fun q hq => hps q (by simp [hq])
    have hshape : (((p :: ps').map frameText).flatten ++ tail)
        = (dataTag ++ p) ++ '\n' :: ((ps'.map frameText).flatten ++ tail) := by
      simp only [List.map_cons, List.flatten_cons, frameText, List.append_assoc,
        List.cons_append, List.nil_append]
    rw [hshape, splitLines_line _ hp, ih hrest]
    simp

/-- Evaluation of `chatStream` on any fragmentation of a canonical well-formed stream:
the yielded deltas are the non-empty extracted contents of the payloads,
in order. -/
theorem chatStream_canonical (e : Extract) (ps : List (List Char))
    (chunks : List (List Nat)) (hps : ∀ p ∈ ps, goodPayload p)
    (hbytes : chunks.flatten = utf8Encode (streamText ps)) :
    GatewayClient.chatStream e chunks =
      (ps.map (fun p => (e p).getD [])).filter (fun c => decide (c ≠ [])) := by
  rw [chatStream_eq_deltas, hbytes, utf8DecodeCore_encode]
  show (processLines e (splitLines (streamText ps)).1).1 = _
  have hnl : ∀ p ∈ ps, noNl p = true := fun p hp => ((hps p hp).2).1
  have hsent : splitLines (dataTag ++ doneTag ++ ['\n'])
      = ([dataTag ++ doneTag], []) := by decide
  rw [streamText, splitLines_frames ps _ hnl, hsent]
  show (processLines e (ps.map (fun p => dataTag ++ p) ++ [dataTag ++ doneTag])).1 = _
  rw [processLines_append, processLines_dataframes e ps hps]
  simp [processLines, processLine_sentinel]

/-- Evaluation of `chatStream` on any fragmentation of a stream of well-formed frames that
ends without a sentinel line: same deltas, ending by natural stream end. -/
theorem chatStream_canonical_noSentinel (e : Extract) (ps : List (List Char))
    (chunks : List (List Nat)) (hps : ∀ p ∈ ps, goodPayload p)
    (hbytes : chunks.flatten = utf8Encode ((ps.map frameText).flatten)) :
    GatewayClient.chatStream e chunks =
      (ps.map (fun p => (e p).getD [])).filter (fun c => decide (c ≠ [])) := by
  rw [chatStream_eq_deltas, hbytes, utf8DecodeCore_encode]
  have hnl : ∀ p ∈ ps, noNl p = true := fun p hp => ((hps p hp).2).1
  have h0 : ((ps.map frameText).flatten ++ ([] : List Char))
      = (ps.map frameText).flatten := by simp
  rw [← h0, splitLines_frames ps [] hnl]
  show (processLines e (ps.map (fun p => dataTag ++ p) ++ [])).1 = _
  rw [List.append_nil, processLines_dataframes e ps hps]

/-! ## The inline decoder copy in the general-chat submit handler
(src/unnamed/part_004, lines 225-247) -/

/-- Per-line body of the inline decoder in `handleGeneralSubmit`
(part_004 lines 236-245).  The only structural differences from
`processLine` are the missing separate empty-line test (subsumed by the
prefix test) and that the sentinel triggers a `break` of the line loop,
not a `return` of the whole generator. -/
def generalProcessLine (e : Extract) (line : List Char) : LineOut :=
  let t := jsTrim line
  if leadsWith dataTag t = false then LineOut.skip
  else
    let d := t.drop 6
    if d = doneTag then LineOut.stop
    else
      match e d with
      | some c => if c = [] then LineOut.skip else LineOut.emit c
      | none => LineOut.skip

/-- The `for (const line of lines)` loop of the inline decoder: on the
sentinel, `break` abandons only the remaining lines of the current batch. -/
def generalProcessLines (e : Extract) : List (List Char) → List (List Char)
  | [] => []
  | l :: ls =>
    match generalProcessLine e l with
    | LineOut.stop => []
    | LineOut.skip => generalProcessLines e ls
    | LineOut.emit c => c :: generalProcessLines e ls

/-- The `while (true)` read loop of the inline decoder: unlike
`chatStreamRun`, hitting the sentinel does not leave this loop, so
subsequent chunks are still processed. -/
def handleGeneralSubmitRun (e : Extract) (st : StreamState) :
    List (List Nat) → List (List Char)
  | [] => []
  | chunk :: rest =>
    let dec := utf8DecodeCore (st.pending ++ chunk)
    let sp := splitLines (st.buffer ++ dec.1)
    generalProcessLines e sp.1 ++ handleGeneralSubmitRun e ⟨dec.2, sp.2⟩ rest

/-- Deltas accumulated by the inline decoder of `handleGeneralSubmit` for a
sequence of network byte chunks. -/
def handleGeneralSubmitStream (e : Extract) (chunks : List (List Nat)) :
    List (List Char) :=
  handleGeneralSubmitRun e ⟨[], []⟩ chunks

/-! ## Instrumented views of the chatStream read loop (for the buffer/line
invariants): the lines flushed from the buffer, the lines examined by the
line loop, and the states held at each await point. -/

/-- Whether the line loop body reaches the sentinel `return` on this line. -/
def lineStops (e : Extract) (l : List Char) : Bool :=
  match processLine e l with
  | LineOut.stop => true
  | LineOut.skip => false
  | LineOut.emit _ => false

/-- Initial segment of a list up to and including the first element
satisfying the test. -/
def takeThrough {α : Type} (p : α → Bool) : List α → List α
  | [] => []
  | a :: as => if p a then [a] else a :: takeThrough p as

/-- The lines whose loop-body is actually executed in one batch: the
sentinel's `return` abandons the remaining lines. -/
def linesExamined (e : Extract) : List (List Char) → List (List Char)
  | [] => []
  | l :: ls =>
    match processLine e l with
    | LineOut.stop => [l]
    | LineOut.skip => l :: linesExamined e ls
    | LineOut.emit _ => l :: linesExamined e ls

/-- All complete lines flushed from the buffer over the run, in order.
A batch's lines are flushed (by `split`/`pop`) before the line loop runs,
so the final batch contributes all its lines even when the sentinel stops
the run inside it. -/
def chatStreamRunFlushed (e : Extract) (st : StreamState) :
    List (List Nat) → List (List Char)
  | [] => []
  | chunk :: rest =>
    let step := chatStreamStep e st chunk
    let ls := (splitLines (st.buffer ++ (utf8DecodeCore (st.pending ++ chunk)).1)).1
    if step.2.1 then ls
    else ls ++ chatStreamRunFlushed e step.2.2 rest

/-- All lines examined by the line loop over the run, in order. -/
def chatStreamRunProcessed (e : Extract) (st : StreamState) :
    List (List Nat) → List (List Char)
  | [] => []
  | chunk :: rest =>
    let step := chatStreamStep e st chunk
    let ls := (splitLines (st.buffer ++ (utf8DecodeCore (st.pending ++ chunk)).1)).1
    if step.2.1 then linesExamined e ls
    else linesExamined e ls ++ chatStreamRunProcessed e step.2.2 rest

/-- The decoder states held while awaiting each next chunk (after the
sentinel's `return` there is no further await). -/
def chatStreamRunStates (e : Extract) (st : StreamState) :
    List (List Nat) → List StreamState
  | [] => []
  | chunk :: rest =>
    let step := chatStreamStep e st chunk
    if step.2.1 then []
    else step.2.2 :: chatStreamRunStates e step.2.2 rest

/-! ## Per-line rule as worded by the specification (for comparison) -/

/-- Remove one trailing carriage return, if present. -/
def stripCR : List Char → List Char
  | [] => []
  | c :: cs =>
    match cs with
    | [] => if c = '\r' then [] else [c]
    | _ :: _ => c :: stripCR cs

/-- Modelled from the spec: the per-line rule as the specification words it
("strip trailing carriage return if present; ignore lines that do not start
with the literal prefix `data: `; ignore empty lines"), with the payload
handling of qualifying lines unchanged. -/
def specLineRule (e : Extract) (line : List Char) : LineOut :=
  let l1 := stripCR line
  if l1 = [] then LineOut.skip
  else if leadsWith dataTag l1 = false then LineOut.skip
  else
    let d := l1.drop 6
    if d = doneTag then LineOut.stop
    else payloadOut e d

/-! ## `GatewayClient.chatStream` response handling (api.ts 188-194) and
`GatewayClient.invoke` (api.ts 62-88) -/

/-- The fetch response as seen by `chatStream`: `ok`/`status` of the response
line, the text used in the error message, and the body byte stream (absent
when `getReader` is unavailable). -/
structure FetchResp where
  ok : Bool
  status : Nat
  bodyText : List Char
  body : Option (List (List Nat))

/-- The message of the error thrown on a non-OK response. -/
def chatErrorText (r : FetchResp) : List Char :=
  "Chat error: ".toList ++ (Nat.repr r.status).toList ++ [' '] ++ r.bodyText

/-- Model of `chatStream` from the response on: throw on non-OK status before any
streaming, throw when there is no body, otherwise produce the delta
sequence. -/
def GatewayClient.chatStreamTop (e : Extract) (r : FetchResp) :
    Except (List Char) (List (List Char)) :=
  if r.ok = false then Except.error (chatErrorText r)
  else
    match r.body with
    | none => Except.error "No response body".toList
    | some chunks => Except.ok (GatewayClient.chatStream e chunks)

/-- The `error` object of a Gateway response envelope. -/
structure GatewayErrorInfo where
  message : Option (List Char)

/-- The JSON envelope returned by the Gateway for a tool invocation. -/
structure InvokeEnvelope (α : Type) where
  ok : Bool
  error : Option GatewayErrorInfo
  result : α

/-- Fallback error message. -/
def unknownErrorText : List Char := "Unknown error".toList

/-- Computation of `data.error?.message || "Unknown error"`. -/
def invokeErrorText {α : Type} (data : InvokeEnvelope α) : List Char :=
  match data.error with
  | none => unknownErrorText
  | some info =>
    match info.message with
    | none => unknownErrorText
    | some m => if m = [] then unknownErrorText else m

/-- Model of `GatewayClient.invoke` (api.ts 62-88): one fetch, then either return the
envelope's result or throw with the reported (or fallback) message.  The
function is given the sequence of responses the network would provide to
successive requests; it performs exactly one. -/
def GatewayClient.invoke {α : Type} (responses : Nat → InvokeEnvelope α) :
    Except (List Char) α :=
  let data := responses 0
  if data.ok then Except.ok data.result else Except.error (invokeErrorText data)

/-! ## The two proxy routes' `checkAuth` -/

/-- Model of `checkAuth` of src/app/api/gateway/route.ts (lines 3-9): an unset (or
empty) `DASHBOARD_PASSWORD` leaves the endpoint open. -/
def GatewayRoute.checkAuth (dashPassword : Option (List Char))
    (authHeaderValue : Option (List Char)) : Bool :=
  match dashPassword with
  | none => true
  | some pw => if pw = [] then true else decide (authHeaderValue.getD [] = pw)

/-- Model of `checkAuth` of src/app/api/chat/route.ts (lines 5-10): an unset (or
empty) `DASHBOARD_PASSWORD` rejects every request. -/
def ChatRoute.checkAuth (dashPassword : Option (List Char))
    (authHeaderValue : Option (List Char)) : Bool :=
  match dashPassword with
  | none => false
  | some pw => if pw = [] then false else decide (authHeaderValue.getD [] = pw)

/-- The early rejection of the chat route's POST handler (lines 13-18):
`some (status, message)` when the request is rejected. -/
def ChatRoute.postAuthGate (dashPassword : Option (List Char))
    (authHeaderValue : Option (List Char)) : Option (Nat × List Char) :=
  if ChatRoute.checkAuth dashPassword authHeaderValue then none
  else some (401, "Unauthorized".toList)

/-! ## Remaining helper lemmas -/

theorem flatten_filter_ne_nil (l : List (List Char)) :
    (l.filter (fun c => decide (c ≠ []))).flatten = l.flatten := by
  induction l with
  | nil => rfl
  | cons c cs ih =>
    rw [List.filter_cons]
    by_cases hc : c = []
    · subst hc
      rw [if_neg (by simp), ih]
      simp
    · rw [if_pos (by simpa using hc), List.flatten_cons, List.flatten_cons, ih]

theorem processLines_snd_any (e : Extract) (ls : List (List Char)) :
    (processLines e ls).2 = ls.any (lineStops e) := by
  induction ls with
  | nil => rfl
  | cons l ls' ih =>
    cases h : processLine e l with
    | stop => simp [processLines, h, lineStops]
    | skip => simp [processLines, h, lineStops, ih]
    | emit c => simp [processLines, h, lineStops, ih]

theorem linesExamined_eq_takeThrough (e : Extract) (ls : List (List Char)) :
    linesExamined e ls = takeThrough (lineStops e) ls := by
  induction ls with
  | nil => rfl
  | cons l ls' ih =>
    cases h : processLine e l with
    | stop => simp [linesExamined, h, takeThrough, lineStops]
    | skip => simp [linesExamined, h, takeThrough, lineStops, ih]
    | emit c => simp [linesExamined, h, takeThrough, lineStops, ih]

theorem takeThrough_of_not_any {α : Type} (p : α → Bool) (l : List α)
    (h : l.any p = false) : takeThrough p l = l := by
  induction l with
  | nil => rfl
  | cons a as ih =>
    simp only [List.any_cons, Bool.or_eq_false_iff] at h
    simp [takeThrough, h.1, ih h.2]

theorem takeThrough_append_of_not_any {α : Type} (p : α → Bool) (l1 l2 : List α)
    (h : l1.any p = false) :
    takeThrough p (l1 ++ l2) = l1 ++ takeThrough p l2 := by
  induction l1 with
  | nil => rfl
  | cons a as ih =>
    simp only [List.any_cons, Bool.or_eq_false_iff] at h
    simp [takeThrough, h.1, ih h.2]

theorem chatStreamRunProcessed_eq (e : Extract) :
    ∀ (chunks : List (List Nat)) (st : StreamState),
      chatStreamRunProcessed e st chunks =
        takeThrough (lineStops e) (chatStreamRunFlushed e st chunks) := by
  intro chunks
  induction chunks with
  | nil => intro st; rfl
  | cons chunk rest ih =>
    intro st
    simp only [chatStreamRunProcessed, chatStreamRunFlushed, chatStreamStep]
    by_cases hstop :
        (processLines e
          (splitLines (st.buffer ++ (utf8DecodeCore (st.pending ++ chunk)).1)).1).2
    · rw [if_pos hstop, if_pos hstop, linesExamined_eq_takeThrough]
    · have hany :
          (splitLines (st.buffer ++ (utf8DecodeCore (st.pending ++ chunk)).1)).1.any
            (lineStops e) = false := by
        rw [← processLines_snd_any]
        simpa using hstop
      rw [if_neg hstop, if_neg hstop, linesExamined_eq_takeThrough,
        takeThrough_of_not_any _ _ hany,
        takeThrough_append_of_not_any _ _ _ hany, ih]

theorem chatStreamRunStates_noNl (e : Extract) :
    ∀ (chunks : List (List Nat)) (st : StreamState),
      ∀ s ∈ chatStreamRunStates e st chunks, noNl s.buffer = true := by
  intro chunks
  induction chunks with
  | nil =>
    intro st s hs
    simp [chatStreamRunStates] at hs
  | cons chunk rest ih =>
    intro st s hs
    simp only [chatStreamRunStates] at hs
    by_cases hstop : (chatStreamStep e st chunk).2.1
    · rw [if_pos hstop] at hs
      simp at hs
    · rw [if_neg hstop] at hs
      simp only [List.mem_cons] at hs
      cases hs with
      | inl h =>
        subst h
        show noNl (chatStreamStep e st chunk).2.2.buffer = true
        simp only [chatStreamStep]
        exact splitLines_snd_noNl _
      | inr h => exact ih _ s h

theorem jsTrimRight_idem (l : List Char) :
    jsTrimRight (jsTrimRight l) = jsTrimRight l := by
  induction l with
  | nil => rfl
  | cons c cs ih =>
    simp only [jsTrimRight]
    by_cases hC : (decide (jsTrimRight cs = []) && jsWhitespace c) = true
    · rw [if_pos hC]
      rfl
    · rw [if_neg hC]
      simp only [jsTrimRight, ih]
      rw [if_neg hC]

theorem stripCR_of_fix {l : List Char} (h : jsTrimRight l = l) :
    stripCR l = l := by
  induction l with
  | nil => rfl
  | cons c cs ih =>
    simp only [jsTrimRight] at h
    by_cases hC : (decide (jsTrimRight cs = []) && jsWhitespace c) = true
    · rw [if_pos hC] at h
      exact absurd h (by simp)
    · rw [if_neg hC] at h
      have hcs : jsTrimRight cs = cs := by
        have := List.cons.injEq c (jsTrimRight cs) c cs ▸ h
        simpa using h
      cases cs with
      | nil =>
        have hcr : c ≠ '\r' := by
          intro hc
          subst hc
          simp [jsTrimRight, jsWhitespace] at hC
        simp [stripCR, hcr]
      | cons d ds =>
        show c :: stripCR (d :: ds) = c :: d :: ds
        rw [ih hcs]

theorem stripCR_jsTrim (line : List Char) :
    stripCR (jsTrim line) = jsTrim line :=
  stripCR_of_fix (jsTrimRight_idem (jsTrimLeft line))

theorem jsTrimLeft_ws_append {ws : List Char} (l : List Char)
    (h : ∀ c ∈ ws, jsWhitespace c = true) :
    jsTrimLeft (ws ++ l) = jsTrimLeft l := by
  induction ws with
  | nil => rfl
  | cons c ws' ih =>
    show jsTrimLeft (c :: (ws' ++ l)) = _
    simp only [jsTrimLeft, List.dropWhile_cons, h c (by simp), if_pos]
    exact ih fun d hd => h d (by simp [hd])

/-! ## Concrete values used by witnesses and counterexamples -/

/-- Example payload containing a multi-byte (non-ASCII) character. -/
def payEx1 : List Char := ['p', 'ä', '1']

/-- Plain ASCII example payload. -/
def payEx2 : List Char := ['p', 'a', 'y', '2']

/-- Example payload standing for an invalid-JSON line. -/
def badPayEx : List Char := ['b', 'a', 'd']

/-- A concrete instance of the JSON-extract abstraction: `payEx1` and `payEx2`
stand for valid frames carrying contents, everything else fails to parse. -/
def extractEx : Extract := fun d =>
  if d = payEx1 then some "Hello".toList
  else if d = payEx2 then some " world".toList
  else none

/-- The encoding of `streamText [payEx1]` fragmented in the middle of the
two-byte encoding of the character `ä`. -/
def chunksEx1 : List (List Nat) :=
  [[0x64, 0x61, 0x74, 0x61, 0x3A, 0x20, 0x70, 0xC3],
   [0xA4, 0x31, 0x0A, 0x64, 0x61, 0x74, 0x61, 0x3A, 0x20,
    0x5B, 0x44, 0x4F, 0x4E, 0x45, 0x5D, 0x0A]]

/-- A sentinel frame followed, in a later chunk, by a valid frame. -/
def chunksDoneThen : List (List Nat) :=
  [utf8Encode ("data: [DONE]\n".toList), utf8Encode ("data: pay2\n".toList)]

/-- One chunk holding an invalid line followed by a valid frame and the
sentinel. -/
def chunksEx3 : List (List Nat) := [utf8Encode (streamText [badPayEx, payEx2])]

/-- A non-OK response. -/
def respEx4 : FetchResp := ⟨false, 500, "boom".toList, none⟩

/-- One frame, stream closed with no sentinel. -/
def chunksEx5 : List (List Nat) := [utf8Encode (frameText payEx2)]

/-- One chunk carrying the sentinel line and a further complete line. -/
def chunksEx7 : List (List Nat) :=
  [utf8Encode ("data: [DONE]\ndata: pay2\n".toList)]

/-- One ordinary frame (used to reach an await point). -/
def chunksEx7b : List (List Nat) := [utf8Encode ("data: pay2\n".toList)]

/-- A complete frame followed by a complete line missing only its newline. -/
def chunksEx9 : List (List Nat) :=
  [utf8Encode ("data: pay2\ndata: pay2".toList)]

/-- A response sequence whose every answer succeeds with result 7. -/
def respOkEx : Nat → InvokeEnvelope Nat := fun _ => ⟨true, none, 7⟩

/-- A response sequence whose every answer is a failure envelope without an
error object. -/
def respErrEx : Nat → InvokeEnvelope Nat := fun n => ⟨false, none, n⟩

/-! ## The claims -/

/-- Claim C1: for every byte stream whose decoded text is a sequence of
newline-terminated well-formed `data: ` lines followed by the sentinel line,
the deltas yielded by `chatStream` are the non-empty extracted contents in
order, their concatenation equals the concatenation of all content fields
(nothing dropped or duplicated, empty contents contributing nothing), and the
result is independent of how the bytes were fragmented into chunks —
including splits inside a multi-byte character, since the hypothesis
constrains only the flattened byte stream. -/
theorem chatStream_delta_reassembly (e : Extract) (ps : List (List Char))
    (chunks : List (List Nat)) (hps : ∀ p ∈ ps, goodPayload p)
    (hbytes : chunks.flatten = utf8Encode (streamText ps)) :
    GatewayClient.chatStream e chunks =
      (ps.map (fun p => (e p).getD [])).filter (fun c => decide (c ≠ [])) ∧
    (GatewayClient.chatStream e chunks).flatten =
      (ps.map (fun p => (e p).getD [])).flatten ∧
    GatewayClient.chatStream e chunks =
      GatewayClient.chatStream e [chunks.flatten] := by
  have h1 := chatStream_canonical e ps chunks hps hbytes
  have h2 := chatStream_canonical e ps [chunks.flatten] hps (by simp [hbytes])
  refine ⟨h1, ?_, h1.trans h2.symm⟩
  rw [h1, flatten_filter_ne_nil]

theorem chatStream_delta_reassembly_witness :
    (∀ p ∈ [payEx1], goodPayload p) ∧
    chunksEx1.flatten = utf8Encode (streamText [payEx1]) ∧
    (GatewayClient.chatStream extractEx chunksEx1 =
        ([payEx1].map (fun p => (extractEx p).getD [])).filter
          (fun c => decide (c ≠ [])) ∧
      (GatewayClient.chatStream extractEx chunksEx1).flatten =
        ([payEx1].map (fun p => (extractEx p).getD [])).flatten ∧
      GatewayClient.chatStream extractEx chunksEx1 =
        GatewayClient.chatStream extractEx [chunksEx1.flatten]) :=
  ⟨by decide, by decide,
    chatStream_delta_reassembly extractEx [payEx1] chunksEx1
      (by decide) (by decide)⟩

/-- Claim C2 (code bug): in `chatStream` the sentinel `return` ends the
sequence, but in the inline copy in `handleGeneralSubmit` the sentinel only
`break`s the per-line loop, so deltas arriving in later chunks after a
`data: [DONE]` line are still accumulated: evaluated on a stream whose first
chunk is the sentinel frame and whose second chunk is a valid frame,
`chatStream` yields nothing while the inline decoder still yields the later
delta. -/
theorem handleGeneralSubmit_sentinel_leak :
    GatewayClient.chatStream extractEx chunksDoneThen = [] ∧
    handleGeneralSubmitStream extractEx chunksDoneThen = [" world".toList] := by
  decide

/-- Claim C3: a `data: ` line whose payload fails to parse (the extract
function returns `none`), interleaved among valid lines, changes nothing: no
error is produced (the model of the loop is total — the `catch` absorbs the
parse failure) and the deltas are exactly those of the stream without that
line, unchanged and in order. -/
theorem chatStream_invalid_line_skipped (e : Extract) (q : List Char)
    (ps1 ps2 : List (List Char)) (chunks : List (List Nat))
    (hq : goodPayload q) (hqe : e q = none)
    (hps1 : ∀ p ∈ ps1, goodPayload p) (hps2 : ∀ p ∈ ps2, goodPayload p)
    (hbytes : chunks.flatten = utf8Encode (streamText (ps1 ++ q :: ps2))) :
    GatewayClient.chatStream e chunks =
      ((ps1 ++ ps2).map (fun p => (e p).getD [])).filter
        (fun c => decide (c ≠ [])) ∧
    GatewayClient.chatStream e chunks =
      GatewayClient.chatStream e [utf8Encode (streamText (ps1 ++ ps2))] := by
  have hall : ∀ p ∈ ps1 ++ q :: ps2, goodPayload p := by
    intro p hp
    rcases List.mem_append.mp hp with h | h
    · exact hps1 p h
    · rcases List.mem_cons.mp h with h | h
      · subst h
        exact hq
      · exact hps2 p h
  have hall2 : ∀ p ∈ ps1 ++ ps2, goodPayload p := by
    intro p hp
    rcases List.mem_append.mp hp with h | h
    · exact hps1 p h
    · exact hps2 p h
  have h1 := chatStream_canonical e (ps1 ++ q :: ps2) chunks hall hbytes
  have h2 := chatStream_canonical e (ps1 ++ ps2)
    [utf8Encode (streamText (ps1 ++ ps2))] hall2 (by simp)
  have hmid :
      ((ps1 ++ q :: ps2).map (fun p => (e p).getD [])).filter
          (fun c => decide (c ≠ [])) =
        ((ps1 ++ ps2).map (fun p => (e p).getD [])).filter
          (fun c => decide (c ≠ [])) := by
    rw [List.map_append, List.map_cons, List.filter_append, List.filter_cons,
      hqe, List.map_append, List.filter_append]
    rw [if_neg (by decide)]
  exact ⟨h1.trans hmid, h1.trans (hmid.trans h2.symm)⟩

theorem chatStream_invalid_line_skipped_witness :
    goodPayload badPayEx ∧ extractEx badPayEx = none ∧
    (GatewayClient.chatStream extractEx chunksEx3 =
        (([] ++ [payEx2]).map (fun p => (extractEx p).getD [])).filter
          (fun c => decide (c ≠ [])) ∧
      GatewayClient.chatStream extractEx chunksEx3 =
        GatewayClient.chatStream extractEx
          [utf8Encode (streamText ([] ++ [payEx2]))]) :=
  ⟨by decide, by decide,
    chatStream_invalid_line_skipped extractEx badPayEx [] [payEx2] chunksEx3
      (by decide) (by decide) (by decide) (by decide) (by decide)⟩

/-- Claim C4: on a non-OK response status `chatStream` throws before any
streaming: the result is the thrown error and is never a delta sequence. -/
theorem chatStreamTop_non_ok_terminal (e : Extract) (r : FetchResp)
    (h : r.ok = false) :
    GatewayClient.chatStreamTop e r = Except.error (chatErrorText r) ∧
    ∀ ds : List (List Char),
      GatewayClient.chatStreamTop e r ≠ Except.ok ds := by
  constructor
  · simp [GatewayClient.chatStreamTop, h]
  · intro ds
    simp [GatewayClient.chatStreamTop, h]

theorem chatStreamTop_non_ok_terminal_witness :
    GatewayClient.chatStreamTop extractEx respEx4 =
        Except.error (chatErrorText respEx4) ∧
      ∀ ds : List (List Char),
        GatewayClient.chatStreamTop extractEx respEx4 ≠ Except.ok ds :=
  chatStreamTop_non_ok_terminal extractEx respEx4 rfl

/-- Claim C5: when the byte source ends without a sentinel line, the
sequence ends normally (the loop's `break` on `done`; the model is total, no
error value exists on this path) having yielded exactly the deltas of the
complete valid frames seen. -/
theorem chatStream_end_without_sentinel (e : Extract) (ps : List (List Char))
    (chunks : List (List Nat)) (hps : ∀ p ∈ ps, goodPayload p)
    (hbytes : chunks.flatten = utf8Encode ((ps.map frameText).flatten)) :
    GatewayClient.chatStream e chunks =
      (ps.map (fun p => (e p).getD [])).filter (fun c => decide (c ≠ [])) :=
  chatStream_canonical_noSentinel e ps chunks hps hbytes

theorem chatStream_end_without_sentinel_witness :
    (∀ p ∈ [payEx2], goodPayload p) ∧
    GatewayClient.chatStream extractEx chunksEx5 =
      ([payEx2].map (fun p => (extractEx p).getD [])).filter
        (fun c => decide (c ≠ [])) :=
  ⟨by decide,
    chatStream_end_without_sentinel extractEx [payEx2] chunksEx5
      (by decide) (by decide)⟩

/-- Claim C6 counterexample: the code does not follow the rule "strip a
trailing carriage return, then require the literal prefix": on the line
`" data: [DONE]"` the code trims the leading space and stops, while the
stated rule would ignore the line. -/
theorem processLine_trim_counterexample :
    processLine extractEx (' ' :: (dataTag ++ doneTag)) ≠
      specLineRule extractEx (' ' :: (dataTag ++ doneTag)) := by
  decide

/-- Claim C6 amended: each line is first trimmed of leading and trailing
JS whitespace (which subsumes stripping a trailing carriage return), and the
rule — ignore empty lines, ignore lines without the literal `data: ` prefix,
sentinel test, payload extraction — applies to the trimmed line.  Hence a
line with leading whitespace before `data: ` is treated as if unindented, and
`data: [DONE] ` is treated as the sentinel. -/
theorem processLine_trim_amended (e : Extract) (line : List Char) :
    processLine e line = specLineRule e (jsTrim line) ∧
    (∀ ws : List Char, (∀ c ∈ ws, jsWhitespace c = true) →
      processLine e (ws ++ line) = processLine e line) ∧
    processLine e (dataTag ++ doneTag ++ [' ']) = LineOut.stop := by
  refine ⟨?_, ?_, rfl⟩
  · simp only [processLine, specLineRule, stripCR_jsTrim, payloadOut]
  · intro ws hws
    simp only [processLine, jsTrim, jsTrimLeft_ws_append line hws]

theorem processLine_trim_amended_witness :
    (∀ c ∈ [' '], jsWhitespace c = true) ∧
    processLine extractEx ([' '] ++ (dataTag ++ payEx2)) =
      processLine extractEx (dataTag ++ payEx2) :=
  ⟨by decide,
    (processLine_trim_amended extractEx (dataTag ++ payEx2)).2.1 [' ']
      (by decide)⟩

/-- Claim C7 counterexample: a flushed line is not always processed: when the
sentinel line and a further complete line are flushed from the buffer in the
same batch, the `return` leaves the later flushed line unexamined. -/
theorem chatStream_flushed_processed_counterexample :
    chatStreamRunProcessed extractEx ⟨[], []⟩ chunksEx7 ≠
      chatStreamRunFlushed extractEx ⟨[], []⟩ chunksEx7 := by
  decide

/-- Claim C7 amended: at every await point the buffer holds no newline (at
most one incomplete trailing line), and the lines processed by the line loop
are exactly the flushed lines up to and including the first line that stops
the generator — each processed at most once, in arrival order, and exactly
once when no sentinel occurs. -/
theorem chatStream_buffer_line_invariant (e : Extract)
    (chunks : List (List Nat)) :
    (∀ s ∈ chatStreamRunStates e ⟨[], []⟩ chunks, noNl s.buffer = true) ∧
    chatStreamRunProcessed e ⟨[], []⟩ chunks =
      takeThrough (lineStops e) (chatStreamRunFlushed e ⟨[], []⟩ chunks) :=
  ⟨chatStreamRunStates_noNl e chunks ⟨[], []⟩,
    chatStreamRunProcessed_eq e chunks ⟨[], []⟩⟩

theorem chatStream_buffer_line_invariant_witness :
    noNl (⟨[], []⟩ : StreamState).buffer = true ∧
    chatStreamRunProcessed extractEx ⟨[], []⟩ chunksEx7b =
      takeThrough (lineStops extractEx)
        (chatStreamRunFlushed extractEx ⟨[], []⟩ chunksEx7b) :=
  ⟨(chatStream_buffer_line_invariant extractEx chunksEx7b).1 ⟨[], []⟩
      (by decide),
    (chatStream_buffer_line_invariant extractEx chunksEx7b).2⟩

/-- Claim C8: `invoke` returns the envelope's result unchanged on `ok`,
otherwise throws the reported message (falling back to `Unknown error` when
no error object or message is present), and the outcome depends only on the
first response — a single attempt, no retry. -/
theorem invoke_contract {α : Type} (responses : Nat → InvokeEnvelope α) :
    ((responses 0).ok = true →
      GatewayClient.invoke responses = Except.ok (responses 0).result) ∧
    ((responses 0).ok = false →
      GatewayClient.invoke responses =
        Except.error (invokeErrorText (responses 0))) ∧
    ((responses 0).ok = false → (responses 0).error = none →
      GatewayClient.invoke responses = Except.error unknownErrorText) ∧
    (∀ responses2 : Nat → InvokeEnvelope α, responses2 0 = responses 0 →
      GatewayClient.invoke responses2 = GatewayClient.invoke responses) := by
  refine ⟨?_, ?_, ?_, ?_⟩
  · intro h
    simp [GatewayClient.invoke, h]
  · intro h
    simp [GatewayClient.invoke, h]
  · intro h he
    simp [GatewayClient.invoke, h, invokeErrorText, he]
  · intro r2 h
    simp [GatewayClient.invoke, h]

theorem invoke_contract_witness :
    GatewayClient.invoke respOkEx = Except.ok 7 ∧
    GatewayClient.invoke respErrEx = Except.error unknownErrorText ∧
    GatewayClient.invoke (fun _ => respOkEx 0) = GatewayClient.invoke respOkEx :=
  ⟨(invoke_contract respOkEx).1 rfl,
    (invoke_contract respErrEx).2.2.1 rfl rfl,
    (invoke_contract respOkEx).2.2.2 (fun _ => respOkEx 0) rfl⟩

/-- Claim C9: text left in the buffer with no terminating newline when the
stream ends is discarded unprocessed: appending any newline-free suffix to
the stream text — even a complete well-formed `data: ` line missing only its
final newline — leaves the yielded deltas unchanged. -/
theorem chatStream_discards_unterminated_line (e : Extract)
    (chunks : List (List Nat)) (T q : List Char) (hq : noNl q = true)
    (hbytes : chunks.flatten = utf8Encode (T ++ q)) :
    GatewayClient.chatStream e chunks =
      GatewayClient.chatStream e [utf8Encode T] := by
  rw [chatStream_eq_deltas e chunks, chatStream_eq_deltas e [utf8Encode T],
    hbytes]
  rw [show ([utf8Encode T] : List (List Nat)).flatten = utf8Encode T from by
    simp]
  rw [utf8DecodeCore_encode, utf8DecodeCore_encode]
  rw [splitLines_append T q,
    splitLines_of_noNl (noNl_append (splitLines_snd_noNl T) hq)]
  simp

theorem chatStream_discards_unterminated_line_witness :
    noNl ("data: pay2".toList) = true ∧
    GatewayClient.chatStream extractEx chunksEx9 =
      GatewayClient.chatStream extractEx
        [utf8Encode ("data: pay2\n".toList)] :=
  ⟨by decide,
    chatStream_discards_unterminated_line extractEx chunksEx9
      ("data: pay2\n".toList) ("data: pay2".toList) (by decide) (by decide)⟩

/-- Claim C10: with `DASHBOARD_PASSWORD` unset, the gateway route's
`checkAuth` accepts every request while the chat route's `checkAuth` rejects
every request, and the chat route's POST handler then answers status 401. -/
theorem checkAuth_password_unset_disagreement (hdr : Option (List Char)) :
    GatewayRoute.checkAuth none hdr = true ∧
    ChatRoute.checkAuth none hdr = false ∧
    ChatRoute.postAuthGate none hdr = some (401, "Unauthorized".toList) := by
  refine ⟨rfl, rfl, ?_⟩
  simp [ChatRoute.postAuthGate, ChatRoute.checkAuth]
